import Mathlib

/-!
Verification of the `immutable` persistent-set library.

The repository's visible code is the Set / SortedSet adapter layer
(`sets.go`), which stores keys in an underlying persistent `Map` /
`SortedMap` with a unit payload.  The two map engines themselves (the hash
trie and the balanced tree) are not part of the visible sources, so they
are modelled here from the specification's public contract; the adapter
layer is translated directly from the source.  Go's variadic parameters
become `List` parameters, Go's `(value, ok)` returns become `Option`,
and the mutate-in-place builder methods become explicit state passing.
-/

set_option autoImplicit false
set_option linter.dupNamespace false

namespace Immutable

universe u

variable {K : Type} {V : Type}

/-! ### The Map engine, modelled from the spec

Modelled from the spec: the hash-trie `Map` engine is missing from the
visible sources.  Its contract (§4.2, §7) is that of a finite persistent
association keyed by the Hasher's equality: `Set` of an existing key
overwrites its value, `Delete` of an absent key is a no-op, `Get` reports
absence by a found flag, `Len` is the number of entries, and iteration
visits every entry once in an unspecified storage order that is stable for
one value.  We model the Hasher's observable part (key equality) by a
`DecidableEq` instance and the storage order by insertion order. -/

/-- Modelled from the spec: an entry list holding the key/value pairs of a
hash-trie `Map` in storage order, keys unique. -/
def getEntry [DecidableEq K] (k : K) : List (K × V) → Option V
  | [] => none
  | p :: t => if p.1 = k then some p.2 else getEntry k t

/-- Modelled from the spec: `Set` of an existing key overwrites its value in
place; a new key is added (at the end, modelling the unspecified storage
position). -/
def setEntry [DecidableEq K] (k : K) (v : V) : List (K × V) → List (K × V)
  | [] => [(k, v)]
  | p :: t => if p.1 = k then (k, v) :: t else p :: setEntry k v t

/-- Modelled from the spec: `Delete` removes the matching entry; deleting an
absent key is a no-op. -/
def delEntry [DecidableEq K] (k : K) : List (K × V) → List (K × V)
  | [] => []
  | p :: t => if p.1 = k then t else p :: delEntry k t

/-- Modelled from the spec: the persistent hash-trie `Map`, reduced to its
observable contents — the entry list in storage order. -/
structure Map (K V : Type) where
  entries : List (K × V)

/-- Modelled from the spec: `NewMap` returns an empty map. -/
def NewMap (K V : Type) : Map K V := ⟨[]⟩

/-- Modelled from the spec: `Get(key) -> (value, found)`. -/
def Map.Get [DecidableEq K] (m : Map K V) (k : K) : Option V :=
  getEntry k m.entries

/-- Modelled from the spec: `Set(key,value) -> Map'` (also the engine's
internal `set`; the builder's mutate-in-place path is observationally the
same function). -/
def Map.set [DecidableEq K] (m : Map K V) (k : K) (v : V) : Map K V :=
  ⟨setEntry k v m.entries⟩

/-- Modelled from the spec: `Delete(key) -> Map'` (also the internal
`delete`). -/
def Map.delete [DecidableEq K] (m : Map K V) (k : K) : Map K V :=
  ⟨delEntry k m.entries⟩

/-- Modelled from the spec: `Len()` — the number of entries. -/
def Map.Len (m : Map K V) : Nat := m.entries.length

/-- Modelled from the spec: a `MapIterator` is a stack of frames describing
the path to the current position; it is exhausted when the stack is empty.
We model the stack by the list of not-yet-visited entries in storage
order. -/
structure MapIterator (K V : Type) where
  entries : List (K × V)
  remaining : List (K × V)

/-- Modelled from the spec: a fresh iterator over the map's entries. -/
def Map.Iterator (m : Map K V) : MapIterator K V :=
  ⟨m.entries, m.entries⟩

/-- Modelled from the spec: `Done()` is true once the stack is empty. -/
def MapIterator.Done (itr : MapIterator K V) : Bool :=
  itr.remaining.isEmpty

/-- Modelled from the spec: `First()` drives the cursor back to the first
reachable entry. -/
def MapIterator.First (itr : MapIterator K V) : MapIterator K V :=
  { itr with remaining := itr.entries }

/-- Modelled from the spec: `Next()` returns the current entry and advances
the cursor, or reports `ok=false` when done. -/
def MapIterator.Next (itr : MapIterator K V) : Option (K × V) × MapIterator K V :=
  match itr.remaining with
  | [] => (none, itr)
  | e :: t => (some e, { itr with remaining := t })

/-! ### The SortedMap engine, modelled from the spec

Modelled from the spec: the balanced-tree `SortedMap` engine is missing
from the visible sources.  Its contract (§4.3, §8) is a finite persistent
association ordered by the Comparer's strict total order, iterated in
strictly increasing key order by a bidirectional, seekable cursor.  We
model the Comparer by the `compare` of a `LinearOrder` instance (any
strict total order arises this way) and the tree by its ordered entry
list. -/

/-- Modelled from the spec: ordered insert — `Set` of an existing key
(compare = eq) overwrites, otherwise the entry is placed at its ordered
position. -/
def insertEntry [LinearOrder K] (k : K) (v : V) : List (K × V) → List (K × V)
  | [] => [(k, v)]
  | p :: t =>
    match compare k p.1 with
    | Ordering.lt => (k, v) :: p :: t
    | Ordering.eq => (k, v) :: t
    | Ordering.gt => p :: insertEntry k v t

/-- Modelled from the spec: `Get` searches for an exact match by
`compare`. -/
def lookupEntry [LinearOrder K] (k : K) : List (K × V) → Option V
  | [] => none
  | p :: t =>
    match compare k p.1 with
    | Ordering.eq => some p.2
    | _ => lookupEntry k t

/-- Modelled from the spec: `Delete` removes the entry matching by
`compare`; deleting an absent key is a no-op. -/
def removeEntry [LinearOrder K] (k : K) : List (K × V) → List (K × V)
  | [] => []
  | p :: t =>
    match compare k p.1 with
    | Ordering.eq => t
    | _ => p :: removeEntry k t

/-- Modelled from the spec: the persistent ordered `SortedMap`, reduced to
its observable contents — the entry list in increasing key order. -/
structure SortedMap (K V : Type) where
  entries : List (K × V)

/-- Modelled from the spec: `NewSortedMap` returns an empty sorted map. -/
def NewSortedMap (K V : Type) : SortedMap K V := ⟨[]⟩

/-- Modelled from the spec: `Get(key) -> (value, found)`. -/
def SortedMap.Get [LinearOrder K] (m : SortedMap K V) (k : K) : Option V :=
  lookupEntry k m.entries

/-- Modelled from the spec: `Set(key,value) -> SortedMap'` (also the
internal `set`). -/
def SortedMap.set [LinearOrder K] (m : SortedMap K V) (k : K) (v : V) : SortedMap K V :=
  ⟨insertEntry k v m.entries⟩

/-- Modelled from the spec: `Delete(key) -> SortedMap'` (also the internal
`delete`). -/
def SortedMap.delete [LinearOrder K] (m : SortedMap K V) (k : K) : SortedMap K V :=
  ⟨removeEntry k m.entries⟩

/-- Modelled from the spec: `Len()` — the number of entries. -/
def SortedMap.Len (m : SortedMap K V) : Nat := m.entries.length

/-- Modelled from the spec: a `SortedMapIterator` is a stack of
(node, index) frames supporting forward and backward stepping and `Seek`.
We model the cursor as a zipper: the entries before the cursor (in
reverse) and the entries from the cursor onwards. -/
structure SortedMapIterator (K V : Type) where
  before : List (K × V)
  after : List (K × V)

/-- Modelled from the spec: a fresh iterator over the sorted map. -/
def SortedMap.Iterator (m : SortedMap K V) : SortedMapIterator K V :=
  ⟨[], m.entries⟩

/-- Modelled from the spec: `Done()` is true once no entries remain ahead
of the cursor. -/
def SortedMapIterator.Done (itr : SortedMapIterator K V) : Bool :=
  itr.after.isEmpty

/-- Modelled from the spec: `First()` descends to the leftmost entry. -/
def SortedMapIterator.First (itr : SortedMapIterator K V) : SortedMapIterator K V :=
  ⟨[], itr.before.reverse ++ itr.after⟩

/-- Modelled from the spec: `Last()` descends to the rightmost entry, so
that backward stepping starts from the last entry. -/
def SortedMapIterator.Last (itr : SortedMapIterator K V) : SortedMapIterator K V :=
  ⟨itr.after.reverse ++ itr.before, []⟩

/-- Modelled from the spec: `Next()` returns the entry at the cursor and
advances, or reports `ok=false` when done. -/
def SortedMapIterator.Next (itr : SortedMapIterator K V) :
    Option (K × V) × SortedMapIterator K V :=
  match itr.after with
  | [] => (none, itr)
  | e :: t => (some e, ⟨e :: itr.before, t⟩)

/-- Modelled from the spec: `Prev()` retreats one entry and returns it
(§8: stepping `Prev` from a successful `Seek(x)` yields the largest key
below x), or reports `ok=false` at the front. -/
def SortedMapIterator.Prev (itr : SortedMapIterator K V) :
    Option (K × V) × SortedMapIterator K V :=
  match itr.before with
  | [] => (none, itr)
  | e :: t => (some e, ⟨t, e :: itr.after⟩)

/-- Modelled from the spec: `Seek(key)` discards the current cursor and
redescends from the root, landing directly on the first entry whose key is
not below `key`. -/
def SortedMapIterator.Seek [LinearOrder K] (itr : SortedMapIterator K V) (k : K) :
    SortedMapIterator K V :=
  let full := itr.before.reverse ++ itr.after
  ⟨(full.takeWhile (fun p => compare p.1 k = Ordering.lt)).reverse,
   full.dropWhile (fun p => compare p.1 k = Ordering.lt)⟩

end Immutable

namespace Immutable

variable {K : Type} {V : Type}

/-! ### The Set adapter (translated from the source) -/

/-- `Set` represents a collection of unique values, stored as the keys of a
`Map[T, struct{}]`. -/
structure Set (K : Type) where
  m : Map K Unit

/-- `NewSet` returns a new instance of Set seeded with some initial
values. -/
def NewSet [DecidableEq K] (values : List K) : Set K :=
  ⟨values.foldl (fun m value => m.set value ()) (NewMap K Unit)⟩

/-- `Set.Set` returns a set containing the new values: the underlying map
is cloned and each value is inserted. -/
def Set.Set [DecidableEq K] (s : Immutable.Set K) (values : List K) : Immutable.Set K :=
  ⟨values.foldl (fun m value => m.set value ()) s.m⟩

/-- `Set.Delete` returns a set with the given values removed. -/
def Set.Delete [DecidableEq K] (s : Immutable.Set K) (values : List K) : Immutable.Set K :=
  ⟨values.foldl (fun m value => m.delete value) s.m⟩

/-- `Set.Has` returns true when the set contains the given value. -/
def Set.Has [DecidableEq K] (s : Immutable.Set K) (val : K) : Bool :=
  (s.m.Get val).isSome

/-- `Set.Len` returns the number of elements in the underlying map. -/
def Set.Len (s : Immutable.Set K) : Nat := s.m.Len

/-- `SetIterator` represents an iterator over a set, wrapping a map
iterator. -/
structure SetIterator (K : Type) where
  mi : MapIterator K Unit

/-- `Set.Iterator` returns a new iterator positioned at the first value
(`First` is invoked on the wrapped map iterator before returning). -/
def Set.Iterator (s : Immutable.Set K) : SetIterator K :=
  ⟨(s.m.Iterator).First⟩

/-- `SetIterator.Done` returns true if no more values remain. -/
def SetIterator.Done (itr : SetIterator K) : Bool :=
  itr.mi.Done

/-- `SetIterator.First` moves the iterator to the first value. -/
def SetIterator.First (itr : SetIterator K) : SetIterator K :=
  ⟨itr.mi.First⟩

/-- `SetIterator.Next` moves the iterator to the next value, dropping the
unit payload. -/
def SetIterator.Next (itr : SetIterator K) : Option K × SetIterator K :=
  match itr.mi.Next with
  | (some e, mi2) => (some e.1, ⟨mi2⟩)
  | (none, mi2) => (none, ⟨mi2⟩)

/-- The body of the `for !itr.Done() { v, _ := itr.Next(); r = append(r, v) }`
loop shared by `Items`, `Filter`, `Map`, `Reduce` and `ForEach`: each pass
emits the key of the entry at the cursor and advances, so the loop yields
the keys of the entries still ahead of the cursor, in order. -/
def visitKeys : List (K × Unit) → List K
  | [] => []
  | e :: t => e.1 :: visitKeys t

/-- The iteration loop of the Set transforms, run from the iterator's
current position. -/
def SetIterator.collect (itr : SetIterator K) : List K :=
  visitKeys itr.mi.remaining

/-- `Set.Items` returns a slice of the items inside the set, collected by
iterating from the first position. -/
def Set.Items (s : Immutable.Set K) : List K :=
  (s.Iterator).collect

/-- `Set.Filter` returns a new Set containing only the items matched by
`f`: a fresh set with the same hasher, filled by iterating the receiver
and inserting each match. -/
def Set.Filter [DecidableEq K] (l : Immutable.Set K) (f : K → Bool) : Immutable.Set K :=
  ⟨l.Items.foldl (fun n value => if f value then n.set value () else n) (NewMap K Unit)⟩

/-- `Set.Map` returns a new Set based on the result of the mapper for each
element. -/
def Set.Map [DecidableEq K] (l : Immutable.Set K) (mapper : K → K) : Immutable.Set K :=
  ⟨l.Items.foldl (fun n value => n.set (mapper value) ()) (NewMap K Unit)⟩

/-- `Set.Reduce` returns a single item, accumulated by running the mapper
on each element. -/
def Set.Reduce (l : Immutable.Set K) (mapper : K → K → K) (acc : K) : K :=
  l.Items.foldl (fun acc value => mapper value acc) acc

/-- `Set.ForEach` performs a func for each item; its observable behaviour
is the sequence of calls, modelled as the list of results. -/
def Set.ForEach {B : Type} (l : Immutable.Set K) (t : K → B) : List B :=
  l.Items.map t

/-- `SetBuilder` wraps a set for mutate-in-place edits; the builder methods
mutate through the shared underlying map, modelled as explicit state
passing. -/
structure SetBuilder (K : Type) where
  s : Set K

/-- `NewSetBuilder` starts from an empty set. -/
def NewSetBuilder (K : Type) [DecidableEq K] : SetBuilder K :=
  ⟨NewSet []⟩

/-- `SetBuilder.Set` inserts through the mutate-in-place path. -/
def SetBuilder.Set [DecidableEq K] (b : SetBuilder K) (val : K) : SetBuilder K :=
  ⟨⟨b.s.m.set val ()⟩⟩

/-- `SetBuilder.Delete` removes through the mutate-in-place path. -/
def SetBuilder.Delete [DecidableEq K] (b : SetBuilder K) (val : K) : SetBuilder K :=
  ⟨⟨b.s.m.delete val⟩⟩

/-- `SetBuilder.Has` delegates to the wrapped set. -/
def SetBuilder.Has [DecidableEq K] (b : SetBuilder K) (val : K) : Bool :=
  b.s.Has val

/-- `SetBuilder.Len` delegates to the wrapped set. -/
def SetBuilder.Len (b : SetBuilder K) : Nat :=
  b.s.Len

/-! ### The SortedSet adapter (translated from the source) -/

/-- `SortedSet` stores values as the keys of a `SortedMap[T, struct{}]`. -/
structure SortedSet (K : Type) where
  m : SortedMap K Unit

/-- `NewSortedSet` returns a new instance of SortedSet seeded with some
initial values. -/
def NewSortedSet [LinearOrder K] (values : List K) : SortedSet K :=
  ⟨values.foldl (fun m value => m.set value ()) (NewSortedMap K Unit)⟩

/-- `SortedSet.Set` returns a set containing the new values: the underlying
map is cloned and each value is inserted. -/
def SortedSet.Set [LinearOrder K] (s : Immutable.SortedSet K) (values : List K) : Immutable.SortedSet K :=
  ⟨values.foldl (fun m value => m.set value ()) s.m⟩

/-- `SortedSet.Delete` returns a set with the given values removed. -/
def SortedSet.Delete [LinearOrder K] (s : Immutable.SortedSet K) (values : List K) : Immutable.SortedSet K :=
  ⟨values.foldl (fun m value => m.delete value) s.m⟩

/-- `SortedSet.Has` returns true when the set contains the given value. -/
def SortedSet.Has [LinearOrder K] (s : Immutable.SortedSet K) (val : K) : Bool :=
  (s.m.Get val).isSome

/-- `SortedSet.Len` returns the number of elements in the underlying
map. -/
def SortedSet.Len (s : Immutable.SortedSet K) : Nat := s.m.Len

/-- `SortedSetIterator` represents an iterator over a sorted set, wrapping
a sorted-map iterator. -/
structure SortedSetIterator (K : Type) where
  mi : SortedMapIterator K Unit

/-- `SortedSet.Iterator` returns a new iterator positioned at the first
value (`First` is invoked on the wrapped iterator before returning). -/
def SortedSet.Iterator (s : Immutable.SortedSet K) : SortedSetIterator K :=
  ⟨(s.m.Iterator).First⟩

/-- `SortedSetIterator.Done` returns true if no more values remain. -/
def SortedSetIterator.Done (itr : SortedSetIterator K) : Bool :=
  itr.mi.Done

/-- `SortedSetIterator.First` moves the iterator to the first value. -/
def SortedSetIterator.First (itr : SortedSetIterator K) : SortedSetIterator K :=
  ⟨itr.mi.First⟩

/-- `SortedSetIterator.Last` moves the iterator to the last value. -/
def SortedSetIterator.Last (itr : SortedSetIterator K) : SortedSetIterator K :=
  ⟨itr.mi.Last⟩

/-- `SortedSetIterator.Next` moves the iterator to the next value,
dropping the unit payload. -/
def SortedSetIterator.Next (itr : SortedSetIterator K) : Option K × SortedSetIterator K :=
  match itr.mi.Next with
  | (some e, mi2) => (some e.1, ⟨mi2⟩)
  | (none, mi2) => (none, ⟨mi2⟩)

/-- `SortedSetIterator.Prev` moves the iterator to the previous value,
dropping the unit payload. -/
def SortedSetIterator.Prev (itr : SortedSetIterator K) : Option K × SortedSetIterator K :=
  match itr.mi.Prev with
  | (some e, mi2) => (some e.1, ⟨mi2⟩)
  | (none, mi2) => (none, ⟨mi2⟩)

/-- `SortedSetIterator.Seek` moves the iterator to the given value; if the
value does not exist then the next value is used, and if no more keys
exist the iterator is marked as done. -/
def SortedSetIterator.Seek [LinearOrder K] (itr : SortedSetIterator K) (val : K) :
    SortedSetIterator K :=
  ⟨itr.mi.Seek val⟩

/-- The forward-iteration loop shared by the SortedSet transforms, run from
the iterator's current position. -/
def SortedSetIterator.collect (itr : SortedSetIterator K) : List K :=
  visitKeys itr.mi.after

/-- `SortedSet.Items` returns a slice of the items inside the set,
collected by iterating from the first position. -/
def SortedSet.Items (s : Immutable.SortedSet K) : List K :=
  (s.Iterator).collect

/-- `SortedSet.Filter` returns a new SortedSet containing only the items
matched by `f`: a fresh set with the same comparer, filled by iterating
the receiver and inserting each match. -/
def SortedSet.Filter [LinearOrder K] (l : Immutable.SortedSet K) (f : K → Bool) : Immutable.SortedSet K :=
  ⟨l.Items.foldl (fun n value => if f value then n.set value () else n) (NewSortedMap K Unit)⟩

/-- `SortedSet.Map` returns a new SortedSet based on the result of the
mapper for each element. -/
def SortedSet.Map [LinearOrder K] (l : Immutable.SortedSet K) (mapper : K → K) : Immutable.SortedSet K :=
  ⟨l.Items.foldl (fun n value => n.set (mapper value) ()) (NewSortedMap K Unit)⟩

/-- `SortedSet.Reduce` returns a single item, accumulated by running the
mapper on each element. -/
def SortedSet.Reduce (l : Immutable.SortedSet K) (mapper : K → K → K) (acc : K) : K :=
  l.Items.foldl (fun acc value => mapper value acc) acc

/-- `SortedSet.ForEach` performs a func for each item; its observable
behaviour is the sequence of calls, modelled as the list of results. -/
def SortedSet.ForEach {B : Type} (l : Immutable.SortedSet K) (t : K → B) : List B :=
  l.Items.map t

/-- `SortedSetBuilder` wraps a sorted set for mutate-in-place edits,
modelled as explicit state passing. -/
structure SortedSetBuilder (K : Type) where
  s : SortedSet K

/-- `NewSortedSetBuilder` starts from an empty sorted set. -/
def NewSortedSetBuilder (K : Type) [LinearOrder K] : SortedSetBuilder K :=
  ⟨NewSortedSet []⟩

/-- `SortedSetBuilder.Set` inserts through the mutate-in-place path. -/
def SortedSetBuilder.Set [LinearOrder K] (b : SortedSetBuilder K) (val : K) :
    SortedSetBuilder K :=
  ⟨⟨b.s.m.set val ()⟩⟩

/-- `SortedSetBuilder.Delete` removes through the mutate-in-place path. -/
def SortedSetBuilder.Delete [LinearOrder K] (b : SortedSetBuilder K) (val : K) :
    SortedSetBuilder K :=
  ⟨⟨b.s.m.delete val⟩⟩

/-- `SortedSetBuilder.Has` delegates to the wrapped set. -/
def SortedSetBuilder.Has [LinearOrder K] (b : SortedSetBuilder K) (val : K) : Bool :=
  b.s.Has val

/-- `SortedSetBuilder.Len` delegates to the wrapped set. -/
def SortedSetBuilder.Len (b : SortedSetBuilder K) : Nat :=
  b.s.Len

/-! ### Reference semantics for the adapter layer (C7)

These definitions follow the spec's words (§6): the set adapters use
exactly the core map contract with a fixed unit-type payload, and the
convenience operations are built entirely from repeated core calls. -/

/-- Follows the spec's words: bulk insert is repeated core `Set` calls on
the underlying map with a unit payload. -/
def specSetBulkInsert [DecidableEq K] (m : Map K Unit) (vs : List K) : Map K Unit :=
  vs.foldl (fun acc v => acc.set v ()) m

/-- Follows the spec's words: bulk delete is repeated core `Delete`
calls. -/
def specSetBulkDelete [DecidableEq K] (m : Map K Unit) (vs : List K) : Map K Unit :=
  vs.foldl (fun acc v => acc.delete v) m

/-- Follows the spec's words: membership is core `Get`'s found flag. -/
def specSetMembership [DecidableEq K] (m : Map K Unit) (v : K) : Bool :=
  (m.Get v).isSome

/-- Follows the spec's words: materialize-to-sequence drives the core
iterator from `First` and collects the visited keys. -/
def specMapIterKeys (m : Map K Unit) : List K :=
  visitKeys ((m.Iterator).First).remaining

/-- Follows the spec's words: filter re-inserts the matching iterated keys
into a fresh core map. -/
def specSetFilterRef [DecidableEq K] (m : Map K Unit) (f : K → Bool) : Map K Unit :=
  ((specMapIterKeys m).filter f).foldl (fun acc v => acc.set v ()) (NewMap K Unit)

/-- Follows the spec's words: map re-inserts the images of the iterated
keys into a fresh core map. -/
def specSetMapRef [DecidableEq K] (m : Map K Unit) (g : K → K) : Map K Unit :=
  (specMapIterKeys m).foldl (fun acc v => acc.set (g v) ()) (NewMap K Unit)

/-- Follows the spec's words: reduce folds the accumulator over the
iterated keys. -/
def specSetReduceRef (m : Map K Unit) (r : K → K → K) (acc : K) : K :=
  (specMapIterKeys m).foldl (fun acc v => r v acc) acc

/-- Follows the spec's words: for-each calls the function on each iterated
key in order; its observable behaviour is the sequence of calls. -/
def specSetForEachRef {B : Type} (m : Map K Unit) (t : K → B) : List B :=
  (specMapIterKeys m).map t

/-- Follows the spec's words: sorted-map analogue of `specSetBulkInsert`. -/
def specSortedBulkInsert [LinearOrder K] (m : SortedMap K Unit) (vs : List K) :
    SortedMap K Unit :=
  vs.foldl (fun acc v => acc.set v ()) m

/-- Follows the spec's words: sorted-map analogue of `specSetBulkDelete`. -/
def specSortedBulkDelete [LinearOrder K] (m : SortedMap K Unit) (vs : List K) :
    SortedMap K Unit :=
  vs.foldl (fun acc v => acc.delete v) m

/-- Follows the spec's words: sorted-map analogue of `specSetMembership`. -/
def specSortedMembership [LinearOrder K] (m : SortedMap K Unit) (v : K) : Bool :=
  (m.Get v).isSome

/-- Follows the spec's words: sorted-map analogue of `specMapIterKeys`. -/
def specSortedIterKeys (m : SortedMap K Unit) : List K :=
  visitKeys ((m.Iterator).First).after

/-- Follows the spec's words: sorted-map analogue of `specSetFilterRef`. -/
def specSortedFilterRef [LinearOrder K] (m : SortedMap K Unit) (f : K → Bool) :
    SortedMap K Unit :=
  ((specSortedIterKeys m).filter f).foldl (fun acc v => acc.set v ()) (NewSortedMap K Unit)

/-- Follows the spec's words: sorted-map analogue of `specSetMapRef`. -/
def specSortedMapRef [LinearOrder K] (m : SortedMap K Unit) (g : K → K) : SortedMap K Unit :=
  (specSortedIterKeys m).foldl (fun acc v => acc.set (g v) ()) (NewSortedMap K Unit)

/-- Follows the spec's words: sorted-map analogue of `specSetReduceRef`. -/
def specSortedReduceRef (m : SortedMap K Unit) (r : K → K → K) (acc : K) : K :=
  (specSortedIterKeys m).foldl (fun acc v => r v acc) acc

/-- Follows the spec's words: sorted-map analogue of `specSetForEachRef`. -/
def specSortedForEachRef {B : Type} (m : SortedMap K Unit) (t : K → B) : List B :=
  (specSortedIterKeys m).map t

/-! ### Well-formedness invariants -/

/-- A hash map is well formed when its keys are pairwise distinct. -/
def Map.WF (m : Map K V) : Prop :=
  (m.entries.map Prod.fst).Nodup

/-- A sorted map is well formed when its keys are strictly increasing. -/
def SortedMap.WF [LinearOrder K] (m : SortedMap K V) : Prop :=
  (m.entries.map Prod.fst).Sorted (· < ·)

end Immutable

namespace Immutable

variable {K : Type} {V : Type}

/-! ### Helper lemmas: the hash-map entry list -/

theorem getEntry_setEntry_self [DecidableEq K] (k : K) (v : V) (l : List (K × V)) :
    getEntry k (setEntry k v l) = some v := by
  induction l with
  | nil => simp [setEntry, getEntry]
  | cons p t ih =>
    by_cases h : p.1 = k
    · simp [setEntry, getEntry, h]
    · simp [setEntry, getEntry, h, ih]

theorem getEntry_setEntry_ne [DecidableEq K] {j k : K} (hjk : j ≠ k) (v : V)
    (l : List (K × V)) : getEntry j (setEntry k v l) = getEntry j l := by
  induction l with
  | nil => simp [setEntry, getEntry, Ne.symm hjk]
  | cons p t ih =>
    by_cases h : p.1 = k
    · have hpj : ¬ p.1 = j := by rw [h]; exact Ne.symm hjk
      simp [setEntry, getEntry, h, hpj, Ne.symm hjk]
    · by_cases h2 : p.1 = j
      · simp [setEntry, getEntry, h, h2, hjk]
      · simp [setEntry, getEntry, h, h2, ih]

theorem length_setEntry_present [DecidableEq K] {k : K} (v : V) {l : List (K × V)}
    (h : (getEntry k l).isSome = true) :
    (setEntry k v l).length = l.length := by
  induction l with
  | nil => simp [getEntry] at h
  | cons p t ih =>
    by_cases hp : p.1 = k
    · simp [setEntry, hp]
    · simp [getEntry, hp] at h
      simp [setEntry, hp]
      exact ih h

theorem length_setEntry_absent [DecidableEq K] {k : K} (v : V) {l : List (K × V)}
    (h : getEntry k l = none) :
    (setEntry k v l).length = l.length + 1 := by
  induction l with
  | nil => simp [setEntry]
  | cons p t ih =>
    by_cases hp : p.1 = k
    · simp [getEntry, hp] at h
    · simp [getEntry, hp] at h
      simp [setEntry, hp]
      exact ih h

theorem getEntry_isSome_iff_mem [DecidableEq K] (k : K) (l : List (K × V)) :
    (getEntry k l).isSome = true ↔ k ∈ l.map Prod.fst := by
  induction l with
  | nil => simp [getEntry]
  | cons p t ih =>
    by_cases hp : p.1 = k
    · simp [getEntry, hp]
    · simp [getEntry, hp, ih, Ne.symm hp]

theorem delEntry_absent [DecidableEq K] {k : K} {l : List (K × V)}
    (h : getEntry k l = none) : delEntry k l = l := by
  induction l with
  | nil => simp [delEntry]
  | cons p t ih =>
    by_cases hp : p.1 = k
    · simp [getEntry, hp] at h
    · simp [getEntry, hp] at h
      simp [delEntry, hp]
      exact ih h

theorem length_delEntry_present [DecidableEq K] {k : K} {l : List (K × V)}
    (h : (getEntry k l).isSome = true) :
    (delEntry k l).length + 1 = l.length := by
  induction l with
  | nil => simp [getEntry] at h
  | cons p t ih =>
    by_cases hp : p.1 = k
    · simp [delEntry, hp]
    · simp [getEntry, hp] at h
      simp [delEntry, hp]
      exact ih h

theorem getEntry_delEntry_ne [DecidableEq K] {j k : K} (hjk : j ≠ k)
    (l : List (K × V)) : getEntry j (delEntry k l) = getEntry j l := by
  induction l with
  | nil => simp [delEntry]
  | cons p t ih =>
    by_cases hp : p.1 = k
    · have hpj : ¬ p.1 = j := by rw [hp]; exact Ne.symm hjk
      simp [delEntry, getEntry, hp, hpj, Ne.symm hjk]
    · by_cases h2 : p.1 = j
      · simp [delEntry, getEntry, hp, h2, hjk]
      · simp [delEntry, getEntry, hp, h2, ih]

end Immutable

namespace Immutable

variable {K : Type} {V : Type}

/-! ### Helper lemmas: the sorted-map entry list -/

theorem lookupEntry_insertEntry_self [LinearOrder K] (k : K) (v : V) (l : List (K × V)) :
    lookupEntry k (insertEntry k v l) = some v := by
  have hself : compare k k = Ordering.eq := compare_eq_iff_eq.mpr rfl
  induction l with
  | nil => simp [insertEntry, lookupEntry, hself]
  | cons p t ih =>
    rcases lt_trichotomy k p.1 with h | h | h
    · have hc : compare k p.1 = Ordering.lt := compare_lt_iff_lt.mpr h
      simp [insertEntry, lookupEntry, hc, hself]
    · have hc : compare k p.1 = Ordering.eq := compare_eq_iff_eq.mpr h
      simp [insertEntry, lookupEntry, hc, hself]
    · have hc : compare k p.1 = Ordering.gt := compare_gt_iff_gt.mpr h
      simp [insertEntry, lookupEntry, hc, ih]

theorem lookupEntry_insertEntry_ne [LinearOrder K] {j k : K} (hjk : j ≠ k) (v : V)
    (l : List (K × V)) : lookupEntry j (insertEntry k v l) = lookupEntry j l := by
  have hne : compare j k ≠ Ordering.eq := fun hc => hjk (compare_eq_iff_eq.mp hc)
  induction l with
  | nil => simp [insertEntry, lookupEntry, hne]
  | cons p t ih =>
    rcases lt_trichotomy k p.1 with h | h | h
    · have hc : compare k p.1 = Ordering.lt := compare_lt_iff_lt.mpr h
      simp [insertEntry, lookupEntry, hc, hne]
    · have hc : compare k p.1 = Ordering.eq := compare_eq_iff_eq.mpr h
      subst h
      simp only [insertEntry, hc, lookupEntry]
    · have hc : compare k p.1 = Ordering.gt := compare_gt_iff_gt.mpr h
      simp only [insertEntry, hc, lookupEntry]
      cases hcj : compare j p.1 with
      | lt => simpa [hcj] using ih
      | eq => simp [hcj]
      | gt => simpa [hcj] using ih

theorem length_insertEntry_absent [LinearOrder K] {k : K} (v : V) {l : List (K × V)}
    (h : lookupEntry k l = none) :
    (insertEntry k v l).length = l.length + 1 := by
  induction l with
  | nil => simp [insertEntry]
  | cons p t ih =>
    rcases lt_trichotomy k p.1 with hlt | heq | hgt
    · have hc : compare k p.1 = Ordering.lt := compare_lt_iff_lt.mpr hlt
      simp [insertEntry, hc]
    · have hc : compare k p.1 = Ordering.eq := compare_eq_iff_eq.mpr heq
      simp [lookupEntry, hc] at h
    · have hc : compare k p.1 = Ordering.gt := compare_gt_iff_gt.mpr hgt
      simp [lookupEntry, hc] at h
      simp [insertEntry, hc]
      exact ih h

theorem lookupEntry_isSome_iff_mem [LinearOrder K] (k : K) (l : List (K × V)) :
    (lookupEntry k l).isSome = true ↔ k ∈ l.map Prod.fst := by
  induction l with
  | nil => simp [lookupEntry]
  | cons p t ih =>
    rcases lt_trichotomy k p.1 with h | h | h
    · have hc : compare k p.1 = Ordering.lt := compare_lt_iff_lt.mpr h
      simp [lookupEntry, hc, ih, ne_of_lt h]
    · have hc : compare k p.1 = Ordering.eq := compare_eq_iff_eq.mpr h
      simp only [lookupEntry]
      rw [hc]
      simp [h]
    · have hc : compare k p.1 = Ordering.gt := compare_gt_iff_gt.mpr h
      simp [lookupEntry, hc, ih, (ne_of_lt h).symm]

theorem removeEntry_absent [LinearOrder K] {k : K} {l : List (K × V)}
    (h : lookupEntry k l = none) : removeEntry k l = l := by
  induction l with
  | nil => simp [removeEntry]
  | cons p t ih =>
    cases hc : compare k p.1 with
    | eq => simp [lookupEntry, hc] at h
    | lt =>
      simp [lookupEntry, hc] at h
      simp [removeEntry, hc]
      exact ih h
    | gt =>
      simp [lookupEntry, hc] at h
      simp [removeEntry, hc]
      exact ih h

theorem length_removeEntry_present [LinearOrder K] {k : K} {l : List (K × V)}
    (h : (lookupEntry k l).isSome = true) :
    (removeEntry k l).length + 1 = l.length := by
  induction l with
  | nil => simp [lookupEntry] at h
  | cons p t ih =>
    cases hc : compare k p.1 with
    | eq => simp [removeEntry, hc]
    | lt =>
      simp [lookupEntry, hc] at h
      simp [removeEntry, hc]
      exact ih h
    | gt =>
      simp [lookupEntry, hc] at h
      simp [removeEntry, hc]
      exact ih h

theorem lookupEntry_removeEntry_ne [LinearOrder K] {j k : K} (hjk : j ≠ k)
    (l : List (K × V)) : lookupEntry j (removeEntry k l) = lookupEntry j l := by
  have hne : compare j k ≠ Ordering.eq := fun hc => hjk (compare_eq_iff_eq.mp hc)
  induction l with
  | nil => simp [removeEntry]
  | cons p t ih =>
    cases hc : compare k p.1 with
    | eq =>
      have hkp : k = p.1 := compare_eq_iff_eq.mp hc
      have hj : compare j p.1 ≠ Ordering.eq := by rw [← hkp]; exact hne
      cases hcj : compare j p.1 with
      | lt => simp [removeEntry, lookupEntry, hc, hcj]
      | eq => exact absurd hcj hj
      | gt => simp [removeEntry, lookupEntry, hc, hcj]
    | lt =>
      cases hcj : compare j p.1 with
      | lt => simp [removeEntry, lookupEntry, hc, hcj, ih]
      | eq => simp [removeEntry, lookupEntry, hc, hcj]
      | gt => simp [removeEntry, lookupEntry, hc, hcj, ih]
    | gt =>
      cases hcj : compare j p.1 with
      | lt => simp [removeEntry, lookupEntry, hc, hcj, ih]
      | eq => simp [removeEntry, lookupEntry, hc, hcj]
      | gt => simp [removeEntry, lookupEntry, hc, hcj, ih]

theorem mem_keys_insertEntry [LinearOrder K] {j k : K} {v : V} {l : List (K × V)}
    (h : j ∈ (insertEntry k v l).map Prod.fst) : j = k ∨ j ∈ l.map Prod.fst := by
  induction l with
  | nil => simp [insertEntry] at h; exact Or.inl h
  | cons p t ih =>
    cases hc : compare k p.1 with
    | lt =>
      simp [insertEntry, hc] at h
      rcases h with h | h | h
      · exact Or.inl h
      · exact Or.inr (by simp [h])
      · exact Or.inr (by simp; exact Or.inr h)
    | eq =>
      simp [insertEntry, hc] at h
      rcases h with h | h
      · exact Or.inl h
      · exact Or.inr (by simp; exact Or.inr h)
    | gt =>
      simp [insertEntry, hc] at h
      rcases h with h | h
      · exact Or.inr (by simp [h])
      · rcases ih (by simpa using h) with h2 | h2
        · exact Or.inl h2
        · exact Or.inr (by simp; exact Or.inr (by simpa using h2))

theorem sorted_insertEntry [LinearOrder K] {k : K} {v : V} {l : List (K × V)}
    (h : (l.map Prod.fst).Sorted (· < ·)) :
    ((insertEntry k v l).map Prod.fst).Sorted (· < ·) := by
  induction l with
  | nil => simp [insertEntry]
  | cons p t ih =>
    rw [List.map_cons, List.sorted_cons] at h
    obtain ⟨hhead, htail⟩ := h
    cases hc : compare k p.1 with
    | lt =>
      have hk : k < p.1 := compare_lt_iff_lt.mp hc
      rw [insertEntry]
      rw [hc]
      simp only [List.map_cons, List.sorted_cons]
      refine ⟨?_, ?_⟩
      · intro b hb
        simp at hb
        rcases hb with hb | hb
        · rw [hb]; exact hk
        · exact lt_trans hk (hhead b (by simpa using hb))
      · exact ⟨hhead, htail⟩
    | eq =>
      have hk : k = p.1 := compare_eq_iff_eq.mp hc
      rw [insertEntry]
      rw [hc]
      simp only [List.map_cons, List.sorted_cons]
      exact ⟨fun b hb => hk ▸ hhead b hb, htail⟩
    | gt =>
      have hk : p.1 < k := compare_gt_iff_gt.mp hc
      rw [insertEntry]
      rw [hc]
      simp only [List.map_cons, List.sorted_cons]
      refine ⟨?_, ih htail⟩
      intro b hb
      rcases mem_keys_insertEntry (by simpa using hb) with hb2 | hb2
      · rw [hb2]; exact hk
      · exact hhead b hb2

theorem removeEntry_sublist [LinearOrder K] (k : K) (l : List (K × V)) :
    (removeEntry k l).Sublist l := by
  induction l with
  | nil => simp [removeEntry]
  | cons p t ih =>
    cases hc : compare k p.1 with
    | eq => simp [removeEntry, hc]
    | lt => rw [removeEntry, hc]; exact List.Sublist.cons₂ p ih
    | gt => rw [removeEntry, hc]; exact List.Sublist.cons₂ p ih

theorem sorted_removeEntry [LinearOrder K] {k : K} {l : List (K × V)}
    (h : (l.map Prod.fst).Sorted (· < ·)) :
    ((removeEntry k l).map Prod.fst).Sorted (· < ·) := by
  exact h.sublist (List.Sublist.map Prod.fst (removeEntry_sublist k l))

end Immutable

namespace Immutable

variable {K : Type} {V : Type}

/-! ### Helper lemmas: iterators and adapter observations -/

theorem visitKeys_eq (l : List (K × Unit)) : visitKeys l = l.map Prod.fst := by
  induction l with
  | nil => rfl
  | cons e t ih => simp [visitKeys, ih]

theorem SetIterator.collect_eq (ents rem : List (K × Unit)) :
    SetIterator.collect ⟨⟨ents, rem⟩⟩ = rem.map Prod.fst :=
  visitKeys_eq rem

theorem SortedSetIterator.sortedCollect_eq (bef aft : List (K × Unit)) :
    SortedSetIterator.collect ⟨⟨bef, aft⟩⟩ = aft.map Prod.fst :=
  visitKeys_eq aft

theorem Set.Items_eq (s : Immutable.Set K) :
    s.Items = s.m.entries.map Prod.fst := by
  show SetIterator.collect ⟨⟨s.m.entries, s.m.entries⟩⟩ = _
  exact SetIterator.collect_eq _ _

theorem SortedSet.sortedItems_eq (s : Immutable.SortedSet K) :
    s.Items = s.m.entries.map Prod.fst := by
  show SortedSetIterator.collect ⟨⟨[], [].reverse ++ s.m.entries⟩⟩ = _
  rw [List.reverse_nil, List.nil_append]
  exact SortedSetIterator.sortedCollect_eq _ _

theorem Set.Has_iff_mem [DecidableEq K] (s : Immutable.Set K) (v : K) :
    s.Has v = true ↔ v ∈ s.m.entries.map Prod.fst :=
  getEntry_isSome_iff_mem v s.m.entries

theorem SortedSet.sortedHas_iff_mem [LinearOrder K] (s : Immutable.SortedSet K) (v : K) :
    s.Has v = true ↔ v ∈ s.m.entries.map Prod.fst :=
  lookupEntry_isSome_iff_mem v s.m.entries

/-! ### Helper lemmas: folded insertions -/

theorem foldl_set_entries [DecidableEq K] (vs : List K) (m : Map K Unit) :
    (vs.foldl (fun acc value => acc.set value ()) m).entries =
      vs.foldl (fun l value => setEntry value () l) m.entries := by
  induction vs generalizing m with
  | nil => rfl
  | cons x t ih => simpa [Map.set] using ih ⟨setEntry x () m.entries⟩

theorem foldl_sortedSet_entries [LinearOrder K] (vs : List K) (m : SortedMap K Unit) :
    (vs.foldl (fun acc value => acc.set value ()) m).entries =
      vs.foldl (fun l value => insertEntry value () l) m.entries := by
  induction vs generalizing m with
  | nil => rfl
  | cons x t ih => simpa [SortedMap.set] using ih ⟨insertEntry x () m.entries⟩

theorem getEntry_foldl_setEntry [DecidableEq K] (vs : List K) (l : List (K × Unit)) (v : K) :
    (getEntry v (vs.foldl (fun acc x => setEntry x () acc) l)).isSome = true ↔
      (v ∈ vs ∨ (getEntry v l).isSome = true) := by
  induction vs generalizing l with
  | nil => simp
  | cons x t ih =>
    simp only [List.foldl_cons]
    rw [ih]
    by_cases hvx : v = x
    · subst hvx
      simp [getEntry_setEntry_self]
    · rw [getEntry_setEntry_ne hvx]
      simp [hvx]

theorem lookupEntry_foldl_insertEntry [LinearOrder K] (vs : List K) (l : List (K × Unit))
    (v : K) :
    (lookupEntry v (vs.foldl (fun acc x => insertEntry x () acc) l)).isSome = true ↔
      (v ∈ vs ∨ (lookupEntry v l).isSome = true) := by
  induction vs generalizing l with
  | nil => simp
  | cons x t ih =>
    simp only [List.foldl_cons]
    rw [ih]
    by_cases hvx : v = x
    · subst hvx
      simp [lookupEntry_insertEntry_self]
    · rw [lookupEntry_insertEntry_ne hvx]
      simp [hvx]

theorem length_foldl_setEntry_nodup [DecidableEq K] {vs : List K} {l : List (K × Unit)}
    (hnd : vs.Nodup) (habs : ∀ x ∈ vs, getEntry x l = none) :
    (vs.foldl (fun acc x => setEntry x () acc) l).length = l.length + vs.length := by
  induction vs generalizing l with
  | nil => simp
  | cons x t ih =>
    simp only [List.foldl_cons]
    have hx : getEntry x l = none := habs x (by simp)
    have habs2 : ∀ y ∈ t, getEntry y (setEntry x () l) = none := by
      intro y hy
      have hyx : y ≠ x := by
        intro he; subst he
        exact (List.nodup_cons.mp hnd).1 hy
      rw [getEntry_setEntry_ne hyx]
      exact habs y (by simp [hy])
    rw [ih (List.nodup_cons.mp hnd).2 habs2, length_setEntry_absent () hx]
    simp [Nat.add_assoc, Nat.add_comm 1 t.length]

theorem sorted_foldl_insertEntry [LinearOrder K] (vs : List K) {l : List (K × Unit)}
    (h : (l.map Prod.fst).Sorted (· < ·)) :
    ((vs.foldl (fun acc x => insertEntry x () acc) l).map Prod.fst).Sorted (· < ·) := by
  induction vs generalizing l with
  | nil => exact h
  | cons x t ih =>
    simp only [List.foldl_cons]
    exact ih (sorted_insertEntry h)

end Immutable

namespace Immutable

variable {K : Type} {V : Type}

/-! ### Glue lemmas for the claim statements -/

theorem isSome_false_eq_none {α : Type} {o : Option α} (h : o.isSome = false) : o = none := by
  cases o with
  | none => rfl
  | some a => simp at h

theorem Set.Set_single_entries [DecidableEq K] (s : Immutable.Set K) (v : K) :
    (s.Set [v]).m.entries = setEntry v () s.m.entries := by
  simp [Immutable.Set.Set, Map.set]

theorem Set.Delete_single_entries [DecidableEq K] (s : Immutable.Set K) (v : K) :
    (s.Delete [v]).m.entries = delEntry v s.m.entries := by
  simp [Immutable.Set.Delete, Map.delete]

theorem SortedSet.sortedSet_single_entries [LinearOrder K] (s : Immutable.SortedSet K) (v : K) :
    (s.Set [v]).m.entries = insertEntry v () s.m.entries := by
  simp [Immutable.SortedSet.Set, SortedMap.set]

theorem SortedSet.sortedDelete_single_entries [LinearOrder K] (s : Immutable.SortedSet K) (v : K) :
    (s.Delete [v]).m.entries = removeEntry v s.m.entries := by
  simp [Immutable.SortedSet.Delete, SortedMap.delete]

theorem setFold_entries [DecidableEq K] (vs : List K) (s0 : Immutable.Set K) :
    (vs.foldl (fun acc x => acc.Set [x]) s0).m.entries =
      vs.foldl (fun l x => setEntry x () l) s0.m.entries := by
  induction vs generalizing s0 with
  | nil => rfl
  | cons x t ih =>
    simpa [Immutable.Set.Set, Map.set] using ih ⟨⟨setEntry x () s0.m.entries⟩⟩

theorem sortedSetFold_entries [LinearOrder K] (vs : List K) (s0 : Immutable.SortedSet K) :
    (vs.foldl (fun acc x => acc.Set [x]) s0).m.entries =
      vs.foldl (fun l x => insertEntry x () l) s0.m.entries := by
  induction vs generalizing s0 with
  | nil => rfl
  | cons x t ih =>
    simpa [Immutable.SortedSet.Set, SortedMap.set] using ih ⟨⟨insertEntry x () s0.m.entries⟩⟩

end Immutable

namespace Immutable

variable {K : Type}

/-! ### The claims -/

/-- Claim C1: persistence of the original handle.  Constructing
`s2 = s.Set(v)` leaves the original `s` observationally unchanged: a value
`k` present in `s` is still present in `s` (and also appears in `s2`), the
original never gains membership of a fresh `v` even though `s2` has it,
and `s2`'s length is one more than the untouched original's.  Stated for
both `Set` and `SortedSet`. -/
theorem claim_C1 [DecidableEq K] [LinearOrder K]
    (s : Immutable.Set K) (t : Immutable.SortedSet K) (v w : K)
    (hs : s.Has v = false) (ht : t.Has w = false) :
    ((s.Set [v]).Has v = true ∧ s.Has v = false ∧
      (∀ k, s.Has k = true → (s.Set [v]).Has k = true ∧ s.Has k = true) ∧
      (s.Set [v]).Len = s.Len + 1) ∧
    ((t.Set [w]).Has w = true ∧ t.Has w = false ∧
      (∀ k, t.Has k = true → (t.Set [w]).Has k = true ∧ t.Has k = true) ∧
      (t.Set [w]).Len = t.Len + 1) := by
  have hsn : getEntry v s.m.entries = none := isSome_false_eq_none hs
  have htn : lookupEntry w t.m.entries = none := isSome_false_eq_none ht
  refine ⟨⟨?_, hs, ?_, ?_⟩, ⟨?_, ht, ?_, ?_⟩⟩
  · show ((s.Set [v]).m.Get v).isSome = true
    rw [Map.Get, Set.Set_single_entries, getEntry_setEntry_self]
    rfl
  · intro k hk
    refine ⟨?_, hk⟩
    have hkv : k ≠ v := by
      intro he; subst he
      rw [hk] at hs; exact Bool.true_eq_false.mp hs
    show ((s.Set [v]).m.Get k).isSome = true
    rw [Map.Get, Set.Set_single_entries, getEntry_setEntry_ne hkv]
    exact hk
  · show (s.Set [v]).m.entries.length = s.m.entries.length + 1
    rw [Set.Set_single_entries]
    exact length_setEntry_absent () hsn
  · show ((t.Set [w]).m.Get w).isSome = true
    rw [SortedMap.Get, SortedSet.sortedSet_single_entries, lookupEntry_insertEntry_self]
    rfl
  · intro k hk
    refine ⟨?_, hk⟩
    have hkw : k ≠ w := by
      intro he; subst he
      rw [hk] at ht; exact Bool.true_eq_false.mp ht
    show ((t.Set [w]).m.Get k).isSome = true
    rw [SortedMap.Get, SortedSet.sortedSet_single_entries, lookupEntry_insertEntry_ne hkw]
    exact hk
  · show (t.Set [w]).m.entries.length = t.m.entries.length + 1
    rw [SortedSet.sortedSet_single_entries]
    exact length_insertEntry_absent () htn

/-- Witness for C1 at a concrete input. -/
theorem claim_C1_witness :
    ((Immutable.NewSet [1, 2] : Immutable.Set Nat).Has 3 = false ∧
      (Immutable.NewSortedSet [1, 2] : Immutable.SortedSet Nat).Has 3 = false) ∧
    ((((Immutable.NewSet [1, 2] : Immutable.Set Nat).Set [3]).Has 3 = true ∧
       (Immutable.NewSet [1, 2] : Immutable.Set Nat).Has 3 = false ∧
       (∀ k, (Immutable.NewSet [1, 2] : Immutable.Set Nat).Has k = true →
         ((Immutable.NewSet [1, 2] : Immutable.Set Nat).Set [3]).Has k = true ∧
           (Immutable.NewSet [1, 2] : Immutable.Set Nat).Has k = true) ∧
       ((Immutable.NewSet [1, 2] : Immutable.Set Nat).Set [3]).Len =
         (Immutable.NewSet [1, 2] : Immutable.Set Nat).Len + 1) ∧
     (((Immutable.NewSortedSet [1, 2] : Immutable.SortedSet Nat).Set [3]).Has 3 = true ∧
       (Immutable.NewSortedSet [1, 2] : Immutable.SortedSet Nat).Has 3 = false ∧
       (∀ k, (Immutable.NewSortedSet [1, 2] : Immutable.SortedSet Nat).Has k = true →
         ((Immutable.NewSortedSet [1, 2] : Immutable.SortedSet Nat).Set [3]).Has k = true ∧
           (Immutable.NewSortedSet [1, 2] : Immutable.SortedSet Nat).Has k = true) ∧
       ((Immutable.NewSortedSet [1, 2] : Immutable.SortedSet Nat).Set [3]).Len =
         (Immutable.NewSortedSet [1, 2] : Immutable.SortedSet Nat).Len + 1)) :=
  ⟨⟨by decide, by decide⟩,
    claim_C1 (Immutable.NewSet [1, 2]) (Immutable.NewSortedSet [1, 2]) 3 3
      (by decide) (by decide)⟩

/-- Claim C2: for every sequence of `Set` calls starting from an empty
`Set` or `SortedSet`, `Has` of an inserted value returns true and `Has` of
a never-inserted value returns false. -/
theorem claim_C2 [DecidableEq K] [LinearOrder K] (vs : List K) (v : K) :
    (v ∈ vs →
      (vs.foldl (fun acc x => acc.Set [x]) (Immutable.NewSet [])).Has v = true ∧
      (vs.foldl (fun acc x => acc.Set [x]) (Immutable.NewSortedSet [])).Has v = true) ∧
    (v ∉ vs →
      (vs.foldl (fun acc x => acc.Set [x]) (Immutable.NewSet [])).Has v = false ∧
      (vs.foldl (fun acc x => acc.Set [x]) (Immutable.NewSortedSet [])).Has v = false) := by
  have hset : (vs.foldl (fun acc x => acc.Set [x]) (Immutable.NewSet [])).Has v = true ↔ v ∈ vs := by
    show ((vs.foldl (fun acc x => acc.Set [x]) (Immutable.NewSet [])).m.Get v).isSome = true ↔ _
    rw [Map.Get, setFold_entries]
    rw [getEntry_foldl_setEntry]
    simp [Immutable.NewSet, NewMap, getEntry]
  have hsorted : (vs.foldl (fun acc x => acc.Set [x]) (Immutable.NewSortedSet [])).Has v = true ↔ v ∈ vs := by
    show ((vs.foldl (fun acc x => acc.Set [x]) (Immutable.NewSortedSet [])).m.Get v).isSome = true ↔ _
    rw [SortedMap.Get, sortedSetFold_entries]
    rw [lookupEntry_foldl_insertEntry]
    simp [Immutable.NewSortedSet, NewSortedMap, lookupEntry]
  constructor
  · intro hv
    exact ⟨hset.mpr hv, hsorted.mpr hv⟩
  · intro hv
    constructor
    · cases h : (vs.foldl (fun acc x => acc.Set [x]) (Immutable.NewSet [])).Has v with
      | false => rfl
      | true => exact absurd (hset.mp h) hv
    · cases h : (vs.foldl (fun acc x => acc.Set [x]) (Immutable.NewSortedSet [])).Has v with
      | false => rfl
      | true => exact absurd (hsorted.mp h) hv

/-- Witness for C2 at a concrete input. -/
theorem claim_C2_witness :
    (3 ∈ [5, 1, 3] →
      (([5, 1, 3] : List Nat).foldl (fun acc x => acc.Set [x]) (Immutable.NewSet [])).Has 3 = true ∧
      (([5, 1, 3] : List Nat).foldl (fun acc x => acc.Set [x]) (Immutable.NewSortedSet [])).Has 3 = true) ∧
    (3 ∉ [5, 1, 3] →
      (([5, 1, 3] : List Nat).foldl (fun acc x => acc.Set [x]) (Immutable.NewSet [])).Has 3 = false ∧
      (([5, 1, 3] : List Nat).foldl (fun acc x => acc.Set [x]) (Immutable.NewSortedSet [])).Has 3 = false) :=
  claim_C2 [5, 1, 3] 3

end Immutable

namespace Immutable

variable {K : Type}

/-- Claim C3: size invariants.  Inserting `n` distinct values into an
empty set gives `Len() == n`; deleting a present value decrements `Len()`
by exactly one; deleting an absent value leaves `Len()` unchanged. -/
theorem claim_C3 [DecidableEq K] (vs : List K) (s s2 : Immutable.Set K) (v w : K)
    (hnd : vs.Nodup) (hpres : s.Has v = true) (habs : s2.Has w = false) :
    (vs.foldl (fun acc x => acc.Set [x]) (Immutable.NewSet [])).Len = vs.length ∧
    (s.Delete [v]).Len + 1 = s.Len ∧
    (s2.Delete [w]).Len = s2.Len := by
  refine ⟨?_, ?_, ?_⟩
  · show (vs.foldl (fun acc x => acc.Set [x]) (Immutable.NewSet [])).m.entries.length = _
    rw [setFold_entries]
    have : (Immutable.NewSet [] : Immutable.Set K).m.entries = [] := rfl
    rw [this]
    have := length_foldl_setEntry_nodup (l := ([] : List (K × Unit))) hnd
      (fun x _ => by simp [getEntry])
    simpa using this
  · show (s.Delete [v]).m.entries.length + 1 = s.m.entries.length
    rw [Set.Delete_single_entries]
    exact length_delEntry_present hpres
  · show (s2.Delete [w]).m.entries.length = s2.m.entries.length
    rw [Set.Delete_single_entries]
    rw [delEntry_absent (isSome_false_eq_none habs)]

/-- Witness for C3 at a concrete input. -/
theorem claim_C3_witness :
    (([5, 1, 3] : List Nat).Nodup ∧
      (Immutable.NewSet [1, 2] : Immutable.Set Nat).Has 1 = true ∧
      (Immutable.NewSet [1] : Immutable.Set Nat).Has 5 = false) ∧
    ((([5, 1, 3] : List Nat).foldl (fun acc x => acc.Set [x]) (Immutable.NewSet [])).Len = 3 ∧
      ((Immutable.NewSet [1, 2] : Immutable.Set Nat).Delete [1]).Len + 1 =
        (Immutable.NewSet [1, 2] : Immutable.Set Nat).Len ∧
      ((Immutable.NewSet [1] : Immutable.Set Nat).Delete [5]).Len =
        (Immutable.NewSet [1] : Immutable.Set Nat).Len) :=
  ⟨⟨by decide, by decide, by decide⟩,
    claim_C3 [5, 1, 3] (Immutable.NewSet [1, 2]) (Immutable.NewSet [1]) 1 5
      (by decide) (by decide) (by decide)⟩

/-- Claim C4: deleting an absent value is a no-op.  For a value `v` not
contained in the set, `Delete(v)` returns a structure with the same
membership for every value and the same length, for both `Set` and
`SortedSet` (and it is total — the model returns a value, never an
error). -/
theorem claim_C4 [DecidableEq K] [LinearOrder K]
    (s : Immutable.Set K) (t : Immutable.SortedSet K) (v : K)
    (hs : s.Has v = false) (ht : t.Has v = false) :
    ((∀ k, (s.Delete [v]).Has k = s.Has k) ∧ (s.Delete [v]).Len = s.Len) ∧
    ((∀ k, (t.Delete [v]).Has k = t.Has k) ∧ (t.Delete [v]).Len = t.Len) := by
  have hse : (s.Delete [v]).m.entries = s.m.entries := by
    rw [Set.Delete_single_entries]
    exact delEntry_absent (isSome_false_eq_none hs)
  have hte : (t.Delete [v]).m.entries = t.m.entries := by
    rw [SortedSet.sortedDelete_single_entries]
    exact removeEntry_absent (isSome_false_eq_none ht)
  refine ⟨⟨?_, ?_⟩, ?_, ?_⟩
  · intro k
    show ((s.Delete [v]).m.Get k).isSome = (s.m.Get k).isSome
    rw [Map.Get, Map.Get, hse]
  · show (s.Delete [v]).m.entries.length = s.m.entries.length
    rw [hse]
  · intro k
    show ((t.Delete [v]).m.Get k).isSome = (t.m.Get k).isSome
    rw [SortedMap.Get, SortedMap.Get, hte]
  · show (t.Delete [v]).m.entries.length = t.m.entries.length
    rw [hte]

/-- Witness for C4 at a concrete input. -/
theorem claim_C4_witness :
    ((Immutable.NewSet [1, 2] : Immutable.Set Nat).Has 7 = false ∧
      (Immutable.NewSortedSet [1, 2] : Immutable.SortedSet Nat).Has 7 = false) ∧
    (((∀ k, ((Immutable.NewSet [1, 2] : Immutable.Set Nat).Delete [7]).Has k =
        (Immutable.NewSet [1, 2] : Immutable.Set Nat).Has k) ∧
      ((Immutable.NewSet [1, 2] : Immutable.Set Nat).Delete [7]).Len =
        (Immutable.NewSet [1, 2] : Immutable.Set Nat).Len) ∧
     ((∀ k, ((Immutable.NewSortedSet [1, 2] : Immutable.SortedSet Nat).Delete [7]).Has k =
        (Immutable.NewSortedSet [1, 2] : Immutable.SortedSet Nat).Has k) ∧
      ((Immutable.NewSortedSet [1, 2] : Immutable.SortedSet Nat).Delete [7]).Len =
        (Immutable.NewSortedSet [1, 2] : Immutable.SortedSet Nat).Len)) :=
  ⟨⟨by decide, by decide⟩,
    claim_C4 (Immutable.NewSet [1, 2]) (Immutable.NewSortedSet [1, 2]) 7
      (by decide) (by decide)⟩

end Immutable

namespace Immutable

variable {K : Type}

theorem bool_eq_of_iff {a b : Bool} (h : a = true ↔ b = true) : a = b := by
  cases a <;> cases b <;> simp_all

theorem foldl_setEntryIf_eq_filter [DecidableEq K] (f : K → Bool) (vs : List K)
    (l : List (K × Unit)) :
    vs.foldl (fun acc x => if f x then setEntry x () acc else acc) l =
      (vs.filter f).foldl (fun acc x => setEntry x () acc) l := by
  induction vs generalizing l with
  | nil => rfl
  | cons x t ih =>
    by_cases hx : f x
    · simp [List.filter_cons, hx, ih]
    · simp [List.filter_cons, hx, ih]

theorem foldl_insertEntryIf_eq_filter [LinearOrder K] (f : K → Bool) (vs : List K)
    (l : List (K × Unit)) :
    vs.foldl (fun acc x => if f x then insertEntry x () acc else acc) l =
      (vs.filter f).foldl (fun acc x => insertEntry x () acc) l := by
  induction vs generalizing l with
  | nil => rfl
  | cons x t ih =>
    by_cases hx : f x
    · simp [List.filter_cons, hx, ih]
    · simp [List.filter_cons, hx, ih]

theorem mapFoldIf_entries [DecidableEq K] (f : K → Bool) (vs : List K) (m : Map K Unit) :
    (vs.foldl (fun n value => if f value then n.set value () else n) m).entries =
      vs.foldl (fun l x => if f x then setEntry x () l else l) m.entries := by
  induction vs generalizing m with
  | nil => rfl
  | cons x t ih =>
    by_cases hx : f x
    · simpa [hx, Map.set] using ih ⟨setEntry x () m.entries⟩
    · simpa [hx] using ih m

theorem sortedMapFoldIf_entries [LinearOrder K] (f : K → Bool) (vs : List K)
    (m : SortedMap K Unit) :
    (vs.foldl (fun n value => if f value then n.set value () else n) m).entries =
      vs.foldl (fun l x => if f x then insertEntry x () l else l) m.entries := by
  induction vs generalizing m with
  | nil => rfl
  | cons x t ih =>
    by_cases hx : f x
    · simpa [hx, SortedMap.set] using ih ⟨insertEntry x () m.entries⟩
    · simpa [hx] using ih m

/-- Claim C8: builder visibility.  For a builder `b` and a value `v` not
yet in it, `b.Set(v)` makes the value observable through the builder —
`Has(v)` becomes true and `Len()` grows by exactly one — while the
immutable set value wrapped by the builder before the edit keeps its
previous length.  Stated for both `SetBuilder` and `SortedSetBuilder`. -/
theorem claim_C8 [DecidableEq K] [LinearOrder K]
    (b : SetBuilder K) (c : SortedSetBuilder K) (v w : K)
    (hb : b.Has v = false) (hc : c.Has w = false) :
    ((b.Set v).Has v = true ∧ (b.Set v).Len = b.Len + 1 ∧ b.s.Len = b.Len) ∧
    ((c.Set w).Has w = true ∧ (c.Set w).Len = c.Len + 1 ∧ c.s.Len = c.Len) := by
  refine ⟨⟨?_, ?_, rfl⟩, ?_, ?_, rfl⟩
  · show (((b.Set v).s.m.Get v)).isSome = true
    show (getEntry v (setEntry v () b.s.m.entries)).isSome = true
    rw [getEntry_setEntry_self]
    rfl
  · show (setEntry v () b.s.m.entries).length = b.s.m.entries.length + 1
    exact length_setEntry_absent () (isSome_false_eq_none hb)
  · show (((c.Set w).s.m.Get w)).isSome = true
    show (lookupEntry w (insertEntry w () c.s.m.entries)).isSome = true
    rw [lookupEntry_insertEntry_self]
    rfl
  · show (insertEntry w () c.s.m.entries).length = c.s.m.entries.length + 1
    exact length_insertEntry_absent () (isSome_false_eq_none hc)

/-- Witness for C8 at a concrete input. -/
theorem claim_C8_witness :
    ((Immutable.SetBuilder.mk (Immutable.NewSet [1, 2]) : Immutable.SetBuilder Nat).Has 3 = false ∧
      (Immutable.SortedSetBuilder.mk (Immutable.NewSortedSet [1, 2]) :
        Immutable.SortedSetBuilder Nat).Has 3 = false) ∧
    ((((Immutable.SetBuilder.mk (Immutable.NewSet [1, 2]) : Immutable.SetBuilder Nat).Set 3).Has 3 = true ∧
       ((Immutable.SetBuilder.mk (Immutable.NewSet [1, 2]) : Immutable.SetBuilder Nat).Set 3).Len =
         (Immutable.SetBuilder.mk (Immutable.NewSet [1, 2]) : Immutable.SetBuilder Nat).Len + 1 ∧
       (Immutable.SetBuilder.mk (Immutable.NewSet [1, 2]) : Immutable.SetBuilder Nat).s.Len =
         (Immutable.SetBuilder.mk (Immutable.NewSet [1, 2]) : Immutable.SetBuilder Nat).Len) ∧
     (((Immutable.SortedSetBuilder.mk (Immutable.NewSortedSet [1, 2]) :
          Immutable.SortedSetBuilder Nat).Set 3).Has 3 = true ∧
       ((Immutable.SortedSetBuilder.mk (Immutable.NewSortedSet [1, 2]) :
          Immutable.SortedSetBuilder Nat).Set 3).Len =
         (Immutable.SortedSetBuilder.mk (Immutable.NewSortedSet [1, 2]) :
          Immutable.SortedSetBuilder Nat).Len + 1 ∧
       (Immutable.SortedSetBuilder.mk (Immutable.NewSortedSet [1, 2]) :
          Immutable.SortedSetBuilder Nat).s.Len =
         (Immutable.SortedSetBuilder.mk (Immutable.NewSortedSet [1, 2]) :
          Immutable.SortedSetBuilder Nat).Len)) :=
  ⟨⟨by decide, by decide⟩,
    claim_C8 (Immutable.SetBuilder.mk (Immutable.NewSet [1, 2]))
      (Immutable.SortedSetBuilder.mk (Immutable.NewSortedSet [1, 2])) 3 3
      (by decide) (by decide)⟩

/-- Claim C9: `Iterator()` returns a cursor already positioned at the
first element — `First` is invoked during construction — so on an empty
set `Done()` is true immediately, and on a non-empty set the first `Next()`
returns an element with `ok=true` without any prior explicit `First()`.
Stated for both `Set` and `SortedSet`. -/
theorem claim_C9 (s : Immutable.Set K) (t : Immutable.SortedSet K) :
    (s.Iterator = ⟨(s.m.Iterator).First⟩ ∧
      (s.Len = 0 → (s.Iterator).Done = true) ∧
      (s.Len ≠ 0 → ∃ v it2, (s.Iterator).Next = (some v, it2))) ∧
    (t.Iterator = ⟨(t.m.Iterator).First⟩ ∧
      (t.Len = 0 → (t.Iterator).Done = true) ∧
      (t.Len ≠ 0 → ∃ v it2, (t.Iterator).Next = (some v, it2))) := by
  refine ⟨⟨rfl, ?_, ?_⟩, rfl, ?_, ?_⟩
  · intro h
    have he : s.m.entries = [] := List.length_eq_zero.mp h
    show (s.m.entries.isEmpty) = true
    rw [he]
    rfl
  · intro h
    cases he : s.m.entries with
    | nil => exact absurd (by rw [Set.Len, Map.Len, he]; rfl) h
    | cons e rest =>
      refine ⟨e.1, ⟨⟨s.m.entries, rest⟩⟩, ?_⟩
      show (match (⟨⟨s.m.entries, s.m.entries⟩⟩ : SetIterator K).mi.Next with
        | (some e, mi2) => (some e.1, (⟨mi2⟩ : SetIterator K))
        | (none, mi2) => (none, ⟨mi2⟩)) = _
      rw [MapIterator.Next]
      simp only [he]
  · intro h
    have he : t.m.entries = [] := List.length_eq_zero.mp h
    show ((([] : List (K × Unit)).reverse ++ t.m.entries).isEmpty) = true
    rw [he]
    rfl
  · intro h
    cases he : t.m.entries with
    | nil => exact absurd (by rw [SortedSet.Len, SortedMap.Len, he]; rfl) h
    | cons e rest =>
      refine ⟨e.1, ⟨⟨e :: ([] : List (K × Unit)).reverse, rest⟩⟩, ?_⟩
      show (match (⟨⟨[], ([] : List (K × Unit)).reverse ++ t.m.entries⟩⟩ :
          SortedSetIterator K).mi.Next with
        | (some e, mi2) => (some e.1, (⟨mi2⟩ : SortedSetIterator K))
        | (none, mi2) => (none, ⟨mi2⟩)) = _
      rw [SortedMapIterator.Next]
      simp only [he, List.reverse_nil, List.nil_append]

/-- Witness for C9 at a concrete input. -/
theorem claim_C9_witness :
    ((Immutable.NewSet ([] : List Nat)).Iterator =
        ⟨((Immutable.NewSet ([] : List Nat)).m.Iterator).First⟩ ∧
      ((Immutable.NewSet ([] : List Nat)).Len = 0 →
        ((Immutable.NewSet ([] : List Nat)).Iterator).Done = true) ∧
      ((Immutable.NewSet ([] : List Nat)).Len ≠ 0 →
        ∃ v it2, ((Immutable.NewSet ([] : List Nat)).Iterator).Next = (some v, it2))) ∧
    ((Immutable.NewSortedSet ([] : List Nat)).Iterator =
        ⟨((Immutable.NewSortedSet ([] : List Nat)).m.Iterator).First⟩ ∧
      ((Immutable.NewSortedSet ([] : List Nat)).Len = 0 →
        ((Immutable.NewSortedSet ([] : List Nat)).Iterator).Done = true) ∧
      ((Immutable.NewSortedSet ([] : List Nat)).Len ≠ 0 →
        ∃ v it2, ((Immutable.NewSortedSet ([] : List Nat)).Iterator).Next = (some v, it2))) :=
  claim_C9 (Immutable.NewSet []) (Immutable.NewSortedSet [])

end Immutable

namespace Immutable

variable {K : Type}

/-- Claim C10: `Filter` returns a new set (with the receiver left
untouched) whose members are exactly the values `v` with `Has(v)` true in
the receiver and `f(v)` true, for both `Set` and `SortedSet`. -/
theorem claim_C10 [DecidableEq K] [LinearOrder K]
    (s : Immutable.Set K) (t : Immutable.SortedSet K) (f : K → Bool) (v : K) :
    (s.Filter f).Has v = (s.Has v && f v) ∧
    (t.Filter f).Has v = (t.Has v && f v) := by
  constructor
  · apply bool_eq_of_iff
    have hlhs : (s.Filter f).Has v = true ↔ v ∈ s.Items.filter f := by
      show ((s.Filter f).m.Get v).isSome = true ↔ _
      rw [Map.Get]
      show (getEntry v (s.Items.foldl
        (fun n value => if f value then n.set value () else n) (NewMap K Unit)).entries).isSome = true ↔ _
      rw [mapFoldIf_entries, foldl_setEntryIf_eq_filter]
      rw [getEntry_foldl_setEntry]
      simp [NewMap, getEntry]
    rw [hlhs, List.mem_filter, Set.Items_eq]
    rw [Bool.and_eq_true]
    rw [Set.Has_iff_mem]
  · apply bool_eq_of_iff
    have hlhs : (t.Filter f).Has v = true ↔ v ∈ t.Items.filter f := by
      show ((t.Filter f).m.Get v).isSome = true ↔ _
      rw [SortedMap.Get]
      show (lookupEntry v (t.Items.foldl
        (fun n value => if f value then n.set value () else n) (NewSortedMap K Unit)).entries).isSome = true ↔ _
      rw [sortedMapFoldIf_entries, foldl_insertEntryIf_eq_filter]
      rw [lookupEntry_foldl_insertEntry]
      simp [NewSortedMap, lookupEntry]
    rw [hlhs, List.mem_filter, SortedSet.sortedItems_eq]
    rw [Bool.and_eq_true]
    rw [SortedSet.sortedHas_iff_mem]

/-- Witness for C10 at a concrete input. -/
theorem claim_C10_witness :
    ((Immutable.NewSet [1, 2, 3] : Immutable.Set Nat).Filter
        (fun x => decide (x % 2 = 1))).Has 3 =
      ((Immutable.NewSet [1, 2, 3] : Immutable.Set Nat).Has 3 && decide ((3 : Nat) % 2 = 1)) ∧
    ((Immutable.NewSortedSet [1, 2, 3] : Immutable.SortedSet Nat).Filter
        (fun x => decide (x % 2 = 1))).Has 3 =
      ((Immutable.NewSortedSet [1, 2, 3] : Immutable.SortedSet Nat).Has 3 &&
        decide ((3 : Nat) % 2 = 1)) :=
  claim_C10 (Immutable.NewSet [1, 2, 3]) (Immutable.NewSortedSet [1, 2, 3])
    (fun x => decide (x % 2 = 1)) 3

end Immutable

namespace Immutable

variable {K : Type}

theorem sortedBuild_entries_sorted [LinearOrder K] (vs : List K) :
    (((vs.foldl (fun acc x => acc.Set [x]) (Immutable.NewSortedSet [])).m.entries.map
      Prod.fst).Sorted (· < ·)) := by
  rw [sortedSetFold_entries]
  exact sorted_foldl_insertEntry vs (by simp [Immutable.NewSortedSet, NewSortedMap])

theorem sortedBuild_mem_iff [LinearOrder K] (vs : List K) (v : K) :
    v ∈ (vs.foldl (fun acc x => acc.Set [x]) (Immutable.NewSortedSet [])).m.entries.map
      Prod.fst ↔ v ∈ vs := by
  rw [← lookupEntry_isSome_iff_mem]
  rw [sortedSetFold_entries]
  rw [lookupEntry_foldl_insertEntry]
  simp [Immutable.NewSortedSet, NewSortedMap, lookupEntry]

/-- Claim C5: a full forward traversal `First()→Next()→…→Done()` of a
`SortedSet` built by a sequence of `Set` calls yields the stored values in
strictly increasing order, and the yielded list equals any reference sort
of the inserted values (any strictly sorted list with the same members). -/
theorem claim_C5 [LinearOrder K] (vs : List K) :
    List.Sorted (· < ·)
      ((vs.foldl (fun acc x => acc.Set [x]) (Immutable.NewSortedSet [])).Items) ∧
    (∀ v, v ∈ (vs.foldl (fun acc x => acc.Set [x]) (Immutable.NewSortedSet [])).Items ↔
      v ∈ vs) ∧
    (∀ r, List.Sorted (· < ·) r → (∀ v, v ∈ r ↔ v ∈ vs) →
      r = (vs.foldl (fun acc x => acc.Set [x]) (Immutable.NewSortedSet [])).Items) := by
  rw [SortedSet.sortedItems_eq]
  have hsorted := sortedBuild_entries_sorted vs
  have hmem := sortedBuild_mem_iff vs
  refine ⟨hsorted, hmem, ?_⟩
  intro r hr hrm
  have hperm : r.Perm ((vs.foldl (fun acc x => acc.Set [x])
      (Immutable.NewSortedSet [])).m.entries.map Prod.fst) := by
    refine (List.perm_ext_iff_of_nodup hr.nodup hsorted.nodup).mpr ?_
    intro a
    rw [hrm a, ← hmem a]
  exact List.eq_of_perm_of_sorted hperm hr hsorted

/-- Witness for C5 at a concrete input. -/
theorem claim_C5_witness :
    List.Sorted (· < ·)
      ((([5, 1, 3] : List Nat).foldl (fun acc x => acc.Set [x])
        (Immutable.NewSortedSet [])).Items) ∧
    (∀ v, v ∈ (([5, 1, 3] : List Nat).foldl (fun acc x => acc.Set [x])
        (Immutable.NewSortedSet [])).Items ↔ v ∈ ([5, 1, 3] : List Nat)) ∧
    (∀ r, List.Sorted (· < ·) r → (∀ v, v ∈ r ↔ v ∈ ([5, 1, 3] : List Nat)) →
      r = (([5, 1, 3] : List Nat).foldl (fun acc x => acc.Set [x])
        (Immutable.NewSortedSet [])).Items) :=
  claim_C5 [5, 1, 3]

end Immutable

namespace Immutable

variable {K : Type}

/-! ### Helper lemmas for Seek (C6) -/

theorem mem_takeWhile_pred {α : Type} {p : α → Bool} {a : α} :
    ∀ {l : List α}, a ∈ l.takeWhile p → p a = true := by
  intro l
  induction l with
  | nil => intro h; simp [List.takeWhile] at h
  | cons b t ih =>
    intro h
    by_cases hb : p b
    · rw [List.takeWhile_cons_of_pos hb] at h
      rcases List.mem_cons.mp h with h | h
      · rw [h]; exact hb
      · exact ih h
    · rw [List.takeWhile_cons_of_neg hb] at h
      simp at h

theorem mem_of_head?_eq {α : Type} {l : List α} {a : α} (h : l.head? = some a) : a ∈ l := by
  cases l with
  | nil => simp at h
  | cons b t =>
    simp at h
    simp [h]

theorem head_key_min {l : List (K × Unit)} [LinearOrder K]
    (hs : (l.map Prod.fst).Sorted (· < ·)) {e : K × Unit} (h : l.head? = some e) :
    ∀ e2 ∈ l, e.1 ≤ e2.1 := by
  cases l with
  | nil => simp at h
  | cons b t =>
    simp at h
    subst h
    intro e2 he2
    rcases List.mem_cons.mp he2 with h2 | h2
    · rw [h2]
    · rw [List.map_cons, List.sorted_cons] at hs
      exact le_of_lt (hs.1 e2.1 (List.mem_map_of_mem Prod.fst h2))

theorem last_key_max {K : Type} [LinearOrder K] :
    ∀ {l : List (K × Unit)}, (l.map Prod.fst).Sorted (· < ·) →
      ∀ {e : K × Unit}, l.reverse.head? = some e → ∀ e2 ∈ l, e2.1 ≤ e.1 := by
  intro l
  induction l with
  | nil => intro _ e h; simp at h
  | cons b t ih =>
    intro hs e h e2 he2
    rw [List.map_cons, List.sorted_cons] at hs
    cases hrev : t.reverse with
    | nil =>
      have ht : t = [] := by
        have := congrArg List.reverse hrev
        simpa using this
      subst ht
      simp at h he2
      rw [he2, h]
    | cons e0 tl =>
      have hh : e = e0 := by
        rw [List.reverse_cons, hrev] at h
        simp at h
        exact h.symm
      subst hh
      have he0t : e ∈ t := by
        have : e ∈ t.reverse := by rw [hrev]; simp
        exact List.mem_reverse.mp this
      rcases List.mem_cons.mp he2 with h2 | h2
      · rw [h2]
        exact le_of_lt (hs.1 e.1 (List.mem_map_of_mem Prod.fst he0t))
      · exact ih hs.2 (by rw [hrev]; rfl) e2 h2

theorem dropWhile_all_ge [LinearOrder K] {L : List (K × Unit)} {x : K}
    (hs : (L.map Prod.fst).Sorted (· < ·)) :
    ∀ e ∈ L.dropWhile (fun e => compare e.1 x = Ordering.lt), x ≤ e.1 := by
  intro e he
  set q : K × Unit → Bool := fun e => compare e.1 x = Ordering.lt with hq
  have hsD : ((L.dropWhile q).map Prod.fst).Sorted (· < ·) :=
    hs.sublist (List.Sublist.map Prod.fst (List.dropWhile_sublist q))
  cases hD : L.dropWhile q with
  | nil => rw [hD] at he; simp at he
  | cons e0 rest =>
    have hhead : (L.dropWhile q).head? = some e0 := by rw [hD]; rfl
    have hq0 : q e0 = false := by
      have := List.head?_dropWhile_not q L
      rw [hhead] at this
      exact this
    have hx0 : x ≤ e0.1 := by
      rw [hq] at hq0
      simp at hq0
      rcases lt_trichotomy e0.1 x with h | h | h
      · exact absurd (compare_lt_iff_lt.mpr h) hq0
      · exact le_of_eq h.symm
      · exact le_of_lt h
    have := head_key_min hsD hhead e he
    exact le_trans hx0 this

theorem takeWhile_all_lt [LinearOrder K] {L : List (K × Unit)} {x : K} :
    ∀ e ∈ L.takeWhile (fun e => compare e.1 x = Ordering.lt), e.1 < x := by
  intro e he
  have := mem_takeWhile_pred he
  simp at this
  exact compare_lt_iff_lt.mp this

theorem mem_takeWhile_or_dropWhile {α : Type} (p : α → Bool) {l : List α} {a : α}
    (h : a ∈ l) : a ∈ l.takeWhile p ∨ a ∈ l.dropWhile p := by
  rw [← List.takeWhile_append_dropWhile p l] at h
  exact List.mem_append.mp h

theorem mem_sub_takeWhile {α : Type} (p : α → Bool) {l : List α} {a : α}
    (h : a ∈ l.takeWhile p) : a ∈ l :=
  (List.takeWhile_sublist p).subset h

theorem mem_sub_dropWhile {α : Type} (p : α → Bool) {l : List α} {a : α}
    (h : a ∈ l.dropWhile p) : a ∈ l :=
  (List.dropWhile_sublist p).subset h

theorem SortedSet.seek_mi [LinearOrder K] (t : Immutable.SortedSet K) (x : K) :
    ((t.Iterator).Seek x).mi =
      ⟨(t.m.entries.takeWhile (fun e => compare e.1 x = Ordering.lt)).reverse,
        t.m.entries.dropWhile (fun e => compare e.1 x = Ordering.lt)⟩ := by
  simp [Immutable.SortedSet.Iterator, SortedMap.Iterator, SortedMapIterator.First,
    SortedSetIterator.Seek, SortedMapIterator.Seek]

end Immutable

namespace Immutable

variable {K : Type}

theorem SortedSetIterator.Next_fst (it : SortedSetIterator K) :
    (it.Next).1 = it.mi.after.head?.map Prod.fst := by
  cases hA : it.mi.after with
  | nil => simp [SortedSetIterator.Next, SortedMapIterator.Next, hA]
  | cons e rest => simp [SortedSetIterator.Next, SortedMapIterator.Next, hA]

theorem SortedSetIterator.Prev_fst (it : SortedSetIterator K) :
    (it.Prev).1 = it.mi.before.head?.map Prod.fst := by
  cases hB : it.mi.before with
  | nil => simp [SortedSetIterator.Prev, SortedMapIterator.Prev, hB]
  | cons e rest => simp [SortedSetIterator.Prev, SortedMapIterator.Prev, hB]

theorem SortedSet.Has_iff_exists [LinearOrder K] (t : Immutable.SortedSet K) (k : K) :
    t.Has k = true ↔ ∃ e ∈ t.m.entries, e.1 = k := by
  rw [SortedSet.sortedHas_iff_mem]
  constructor
  · intro h
    rcases List.mem_map.mp h with ⟨e, he, hek⟩
    exact ⟨e, he, hek⟩
  · rintro ⟨e, he, hek⟩
    exact List.mem_map.mpr ⟨e, he, hek⟩

/-- Claim C6: `Seek(x)` positions the cursor on the smallest stored key
that is greater than or equal to `x` (reading the landing element with
`Next`), or leaves `Done()==true` when no such key exists; and `Prev()`
called immediately after such a `Seek(x)` yields the largest stored key
strictly below `x` (when one exists). -/
theorem claim_C6 [LinearOrder K] (t : Immutable.SortedSet K) (x : K)
    (hwf : SortedMap.WF t.m) :
    (((t.Iterator).Seek x).Done = true ↔ ∀ k, t.Has k = true → k < x) ∧
    (∀ k, (((t.Iterator).Seek x).Next).1 = some k →
      t.Has k = true ∧ x ≤ k ∧ ∀ j, t.Has j = true → x ≤ j → k ≤ j) ∧
    ((∃ k, t.Has k = true ∧ x ≤ k) → ∃ k, (((t.Iterator).Seek x).Next).1 = some k) ∧
    (∀ k, (((t.Iterator).Seek x).Prev).1 = some k →
      t.Has k = true ∧ k < x ∧ ∀ j, t.Has j = true → j < x → j ≤ k) ∧
    ((((t.Iterator).Seek x).Done = false ∧ ∃ j, t.Has j = true ∧ j < x) →
      ∃ k, (((t.Iterator).Seek x).Prev).1 = some k) := by
  have hs : (t.m.entries.map Prod.fst).Sorted (· < ·) := hwf
  have hmi := SortedSet.seek_mi t x
  have hnext : (((t.Iterator).Seek x).Next).1 =
      (t.m.entries.dropWhile (fun e => compare e.1 x = Ordering.lt)).head?.map Prod.fst := by
    rw [SortedSetIterator.Next_fst, hmi]
  have hprev : (((t.Iterator).Seek x).Prev).1 =
      ((t.m.entries.takeWhile (fun e => compare e.1 x = Ordering.lt)).reverse).head?.map
        Prod.fst := by
    rw [SortedSetIterator.Prev_fst, hmi]
  have hdone : ((t.Iterator).Seek x).Done =
      (t.m.entries.dropWhile (fun e => compare e.1 x = Ordering.lt)).isEmpty := by
    show (((t.Iterator).Seek x).mi.after).isEmpty = _
    rw [hmi]
  have hsD : ((t.m.entries.dropWhile
      (fun e => compare e.1 x = Ordering.lt)).map Prod.fst).Sorted (· < ·) :=
    hs.sublist (List.Sublist.map Prod.fst (List.dropWhile_sublist _))
  have hsT : ((t.m.entries.takeWhile
      (fun e => compare e.1 x = Ordering.lt)).map Prod.fst).Sorted (· < ·) :=
    hs.sublist (List.Sublist.map Prod.fst (List.takeWhile_sublist _))
  have hmemT : ∀ e ∈ t.m.entries, e.1 < x →
      e ∈ t.m.entries.takeWhile (fun e => compare e.1 x = Ordering.lt) := by
    intro e he helt
    rcases mem_takeWhile_or_dropWhile (fun e => compare e.1 x = Ordering.lt) he with h | h
    · exact h
    · exact absurd helt (not_lt.mpr (dropWhile_all_ge hs e h))
  have hmemD : ∀ e ∈ t.m.entries, x ≤ e.1 →
      e ∈ t.m.entries.dropWhile (fun e => compare e.1 x = Ordering.lt) := by
    intro e he hege
    rcases mem_takeWhile_or_dropWhile (fun e => compare e.1 x = Ordering.lt) he with h | h
    · exact absurd (takeWhile_all_lt e h) (not_lt.mpr hege)
    · exact h
  refine ⟨?_, ?_, ?_, ?_, ?_⟩
  · rw [hdone]
    rw [List.isEmpty_iff, List.dropWhile_eq_nil_iff]
    constructor
    · intro hall k hk
      rcases (SortedSet.Has_iff_exists t k).mp hk with ⟨e, he, hek⟩
      have := hall e he
      simp at this
      rw [← hek]
      exact compare_lt_iff_lt.mp this
    · intro hall e he
      have : e.1 < x := hall e.1 ((SortedSet.Has_iff_exists t e.1).mpr ⟨e, he, rfl⟩)
      simp [compare_lt_iff_lt.mpr this]
  · intro k hk
    rw [hnext] at hk
    rcases Option.map_eq_some'.mp hk with ⟨e, hhead, hek⟩
    have heD := mem_of_head?_eq hhead
    have heL := mem_sub_dropWhile _ heD
    refine ⟨(SortedSet.Has_iff_exists t k).mpr ⟨e, heL, hek⟩, ?_, ?_⟩
    · rw [← hek]
      exact dropWhile_all_ge hs e heD
    · intro j hj hxj
      rcases (SortedSet.Has_iff_exists t j).mp hj with ⟨e2, he2, he2j⟩
      have he2D : e2 ∈ t.m.entries.dropWhile (fun e => compare e.1 x = Ordering.lt) :=
        hmemD e2 he2 (by rw [he2j]; exact hxj)
      have := head_key_min hsD hhead e2 he2D
      rw [hek, he2j] at this
      exact this
  · rintro ⟨k, hk, hxk⟩
    rcases (SortedSet.Has_iff_exists t k).mp hk with ⟨e, he, hek⟩
    have heD := hmemD e he (by rw [hek]; exact hxk)
    rw [hnext]
    cases hD : t.m.entries.dropWhile (fun e => compare e.1 x = Ordering.lt) with
    | nil => rw [hD] at heD; simp at heD
    | cons e0 rest => exact ⟨e0.1, rfl⟩
  · intro k hk
    rw [hprev] at hk
    rcases Option.map_eq_some'.mp hk with ⟨e, hhead, hek⟩
    have heT : e ∈ t.m.entries.takeWhile (fun e => compare e.1 x = Ordering.lt) :=
      List.mem_reverse.mp (mem_of_head?_eq hhead)
    have heL := mem_sub_takeWhile _ heT
    refine ⟨(SortedSet.Has_iff_exists t k).mpr ⟨e, heL, hek⟩, ?_, ?_⟩
    · rw [← hek]
      exact takeWhile_all_lt e heT
    · intro j hj hjx
      rcases (SortedSet.Has_iff_exists t j).mp hj with ⟨e2, he2, he2j⟩
      have he2T := hmemT e2 he2 (by rw [he2j]; exact hjx)
      have := last_key_max hsT hhead e2 he2T
      rw [hek, he2j] at this
      exact this
  · rintro ⟨_, j, hj, hjx⟩
    rcases (SortedSet.Has_iff_exists t j).mp hj with ⟨e2, he2, he2j⟩
    have he2T := hmemT e2 he2 (by rw [he2j]; exact hjx)
    rw [hprev]
    cases hT : (t.m.entries.takeWhile (fun e => compare e.1 x = Ordering.lt)).reverse with
    | nil =>
      have : t.m.entries.takeWhile (fun e => compare e.1 x = Ordering.lt) = [] := by
        have := congrArg List.reverse hT
        simpa using this
      rw [this] at he2T
      simp at he2T
    | cons e0 rest => exact ⟨e0.1, rfl⟩

/-- Witness for C6 at a concrete input. -/
theorem claim_C6_witness :
    SortedMap.WF (Immutable.NewSortedSet [5, 1, 3] : Immutable.SortedSet Nat).m ∧
    ((((Immutable.NewSortedSet [5, 1, 3] : Immutable.SortedSet Nat).Iterator.Seek 2).Done = true ↔
        ∀ k, (Immutable.NewSortedSet [5, 1, 3] : Immutable.SortedSet Nat).Has k = true → k < 2) ∧
      (∀ k, (((Immutable.NewSortedSet [5, 1, 3] :
            Immutable.SortedSet Nat).Iterator.Seek 2).Next).1 = some k →
        (Immutable.NewSortedSet [5, 1, 3] : Immutable.SortedSet Nat).Has k = true ∧ 2 ≤ k ∧
          ∀ j, (Immutable.NewSortedSet [5, 1, 3] : Immutable.SortedSet Nat).Has j = true →
            2 ≤ j → k ≤ j) ∧
      ((∃ k, (Immutable.NewSortedSet [5, 1, 3] : Immutable.SortedSet Nat).Has k = true ∧
          2 ≤ k) →
        ∃ k, (((Immutable.NewSortedSet [5, 1, 3] :
          Immutable.SortedSet Nat).Iterator.Seek 2).Next).1 = some k) ∧
      (∀ k, (((Immutable.NewSortedSet [5, 1, 3] :
            Immutable.SortedSet Nat).Iterator.Seek 2).Prev).1 = some k →
        (Immutable.NewSortedSet [5, 1, 3] : Immutable.SortedSet Nat).Has k = true ∧ k < 2 ∧
          ∀ j, (Immutable.NewSortedSet [5, 1, 3] : Immutable.SortedSet Nat).Has j = true →
            j < 2 → j ≤ k) ∧
      ((((Immutable.NewSortedSet [5, 1, 3] :
            Immutable.SortedSet Nat).Iterator.Seek 2).Done = false ∧
          ∃ j, (Immutable.NewSortedSet [5, 1, 3] : Immutable.SortedSet Nat).Has j = true ∧
            j < 2) →
        ∃ k, (((Immutable.NewSortedSet [5, 1, 3] :
          Immutable.SortedSet Nat).Iterator.Seek 2).Prev).1 = some k)) :=
  ⟨by
      show (((Immutable.NewSortedSet [5, 1, 3] :
        Immutable.SortedSet Nat).m.entries.map Prod.fst).Sorted (· < ·))
      decide,
    claim_C6 (Immutable.NewSortedSet [5, 1, 3]) 2
      (by
        show (((Immutable.NewSortedSet [5, 1, 3] :
          Immutable.SortedSet Nat).m.entries.map Prod.fst).Sorted (· < ·))
        decide)⟩

end Immutable

namespace Immutable

variable {K : Type} {V : Type}

theorem Map.entries_ext {a b : Map K V} (h : a.entries = b.entries) : a = b := by
  cases a; cases b; simpa using h

theorem SortedMap.sortedEntries_ext {a b : SortedMap K V} (h : a.entries = b.entries) : a = b := by
  cases a; cases b; simpa using h

/-- Claim C7: the `Set`/`SortedSet` adapters delegate every operation to
the underlying `Map`/`SortedMap` with a unit payload and add no new
algorithmic behaviour: each adapter operation equals the corresponding
composition of core map calls (the reference `spec…` definitions, written
from the spec's words). -/
theorem claim_C7 [DecidableEq K] [LinearOrder K] {B : Type}
    (s : Immutable.Set K) (t : Immutable.SortedSet K) (vs : List K) (v : K)
    (f : K → Bool) (g : K → K) (r : K → K → K) (acc : K) (tf : K → B) :
    ((s.Set vs).m = specSetBulkInsert s.m vs ∧
      (s.Delete vs).m = specSetBulkDelete s.m vs ∧
      s.Has v = specSetMembership s.m v ∧
      s.Len = s.m.Len ∧
      s.Iterator = ⟨(s.m.Iterator).First⟩ ∧
      s.Items = specMapIterKeys s.m ∧
      (s.Filter f).m = specSetFilterRef s.m f ∧
      (s.Map g).m = specSetMapRef s.m g ∧
      s.Reduce r acc = specSetReduceRef s.m r acc ∧
      s.ForEach tf = specSetForEachRef s.m tf) ∧
    ((t.Set vs).m = specSortedBulkInsert t.m vs ∧
      (t.Delete vs).m = specSortedBulkDelete t.m vs ∧
      t.Has v = specSortedMembership t.m v ∧
      t.Len = t.m.Len ∧
      t.Iterator = ⟨(t.m.Iterator).First⟩ ∧
      t.Items = specSortedIterKeys t.m ∧
      (t.Filter f).m = specSortedFilterRef t.m f ∧
      (t.Map g).m = specSortedMapRef t.m g ∧
      t.Reduce r acc = specSortedReduceRef t.m r acc ∧
      t.ForEach tf = specSortedForEachRef t.m tf) := by
  refine ⟨⟨rfl, rfl, rfl, rfl, rfl, rfl, ?_, rfl, rfl, rfl⟩,
    rfl, rfl, rfl, rfl, rfl, rfl, ?_, rfl, rfl, rfl⟩
  · apply Map.entries_ext
    show (s.Items.foldl (fun n value => if f value then n.set value () else n)
      (NewMap K Unit)).entries = (specSetFilterRef s.m f).entries
    rw [mapFoldIf_entries, foldl_setEntryIf_eq_filter]
    rw [specSetFilterRef, foldl_set_entries]
    rfl
  · apply SortedMap.sortedEntries_ext
    show (t.Items.foldl (fun n value => if f value then n.set value () else n)
      (NewSortedMap K Unit)).entries = (specSortedFilterRef t.m f).entries
    rw [sortedMapFoldIf_entries, foldl_insertEntryIf_eq_filter]
    rw [specSortedFilterRef, foldl_sortedSet_entries]
    rfl

end Immutable
